import Mathlib

/-!
Shallow embedding of the luet repository subsystem
(`pkg/installer/repository.go`): the repository descriptor data model,
the spec-document (de)serialization, the sync engine, the docker
repository generator, and the multi-repository aggregator.

External collaborators (the transport client, the YAML codec, the
archive/checksum primitives, the package-tree database and the container
backend) are opaque capabilities in the source; they are modelled here as
explicit function-valued parameters (oracles), while every algorithm of
the file itself is translated operation by operation.  Filesystem paths
and file contents are modelled as opaque string tokens.
-/

namespace Luet

/-- Package record as seen through the `pkg.Package` interface: a name,
category and version identify the package, `selector` models
`IsSelector()`, `fingerprint` models `GetFingerPrint()`, `imageId` models
`ImageID()`, and `labels` stands for the rest of the package definition
(so two repositories can ship different definitions under one
fingerprint). -/
structure Pack where
  name : String
  category : String
  version : String
  selector : Bool
  fingerprint : String
  imageId : String
  labels : List String
  deriving DecidableEq, Repr

/-- Package-database capability (`pkg.PackageDatabase`): the world of
package definitions plus the query functions used by the aggregator.
Queries that return a Go `error` are modelled with `Option` (`none` is
the error case). -/
structure PackageDatabase where
  world : List Pack
  findPackage : Pack → Option Pack
  findPackageCandidate : Pack → Option Pack
  findPackageMatch : String → Option (List Pack)
  findPackageLabel : String → Option (List Pack)
  findPackageLabelMatch : String → Option (List Pack)

/-- Artifact record of the repository index: the owning package and the
list of files the package installs (`GetFiles`), as used by
`FileSearch`. -/
structure Artifact where
  pack : Pack
  files : List String

/-- One synchronized repository as the aggregator sees it: its priority,
its tree database (`GetTree().GetDatabase()`) and its artifact index
(`GetIndex()`). -/
structure Repo where
  priority : Int
  db : PackageDatabase
  index : List Artifact

/-- Priority order used by `Repositories.Less`. -/
def repoLe (a b : Repo) : Prop := a.priority ≤ b.priority

instance : DecidableRel repoLe := fun a b =>
  inferInstanceAs (Decidable (a.priority ≤ b.priority))

instance : IsTotal Repo repoLe := ⟨fun a b => Int.le_total a.priority b.priority⟩

instance : IsTrans Repo repoLe := ⟨fun _ _ _ h1 h2 => le_trans h1 h2⟩

/-- Model of `sort.Sort(re)` with `Repositories.Less` comparing
priorities: produces a priority-sorted permutation of the collection
(Go's sort promises exactly a sorted permutation). -/
def sortRepos (re : List Repo) : List Repo := List.insertionSort repoLe re

/-- Model of `Repositories.ResolveSelectors`, inner `REPOSITORY` loop for
one requested package.  Translated exactly from the source: a selector
takes the first repository whose `FindPackageCandidate` succeeds and then
leaves the loop (`continue PACKAGE`); a non-selector is appended in every
iteration of the inner loop (the source has no early exit in the `else`
branch). -/
def resolveSelectorsOne : List Repo → Pack → List Pack
  | [], _ => []
  | r :: rs, pack =>
    if pack.selector then
      match r.db.findPackageCandidate pack with
      | none => resolveSelectorsOne rs pack
      | some c => [c]
    else
      pack :: resolveSelectorsOne rs pack

/-- Model of `Repositories.ResolveSelectors`: sorts the receiver in place
by priority (returned as the first component) and accumulates the matches
of the per-package inner loop. -/
def ResolveSelectors (re : List Repo) (p : List Pack) : List Repo × List Pack :=
  let s := sortRepos re
  (s, p.flatMap (resolveSelectorsOne s))

/-- Match record returned by the aggregator (`PackageMatch`). -/
structure PackageMatchR where
  repo : Repo
  artifact : Option Artifact
  pack : Pack

/-- Model of the inner loop of `Repositories.PackageMatches` for one
requested package: first repository whose `FindPackage` succeeds wins. -/
def packageMatchesOne : List Repo → Pack → List PackageMatchR
  | [], _ => []
  | r :: rs, pack =>
    match r.db.findPackage pack with
    | some c => [{ repo := r, artifact := none, pack := c }]
    | none => packageMatchesOne rs pack

/-- Model of `Repositories.PackageMatches`: sorts the receiver in place,
then scans repositories in ascending-priority order per package. -/
def PackageMatches (re : List Repo) (p : List Pack) : List Repo × List PackageMatchR :=
  let s := sortRepos re
  (s, p.flatMap (packageMatchesOne s))

/-- Search modes (`LuetSearchModeType`). -/
inductive SearchMode where
  | label
  | regexPkg
  | regexLabel
  | file
  deriving DecidableEq, Repr

/-- Model of `LuetSystemRepository.FileSearch`: `rex` is the
`regexp.Compile` capability (`none` = compile error); every artifact with
at least one matching installed file contributes its package once
(`continue ARTIFACT`). -/
def fileSearch (rex : String → Option (String → Bool)) (index : List Artifact)
    (pat : String) : Option (List Pack) :=
  match rex pat with
  | none => none
  | some m => some (index.filterMap fun a => if a.files.any m then some a.pack else none)

/-- Model of `LuetSystemRepository.SearchArtefact`: first artifact whose
package matches (package matching compares fingerprints). -/
def searchArtefact (index : List Artifact) (p : Pack) : Option Artifact :=
  index.find? fun a => a.pack.fingerprint == p.fingerprint

/-- Per-repository dispatch of `Repositories.SearchPackages` on the
search mode. -/
def searchRepo (rex : String → Option (String → Bool)) (r : Repo) (pat : String) :
    SearchMode → Option (List Pack)
  | .regexPkg => r.db.findPackageMatch pat
  | .label => r.db.findPackageLabel pat
  | .regexLabel => r.db.findPackageLabelMatch pat
  | .file => fileSearch rex r.index pat

/-- Model of `Repositories.SearchPackages`: sorts the receiver in place,
then collects the hits of every repository (an error or an empty result
contributes nothing). -/
def SearchPackages (rex : String → Option (String → Bool)) (re : List Repo)
    (pat : String) (t : SearchMode) : List Repo × List PackageMatchR :=
  let s := sortRepos re
  (s, s.flatMap fun r =>
    match searchRepo rex r pat t with
    | none => []
    | some ms => ms.map fun pack =>
        { repo := r, artifact := searchArtefact r.index pack, pack := pack })

/-- Fingerprint cache used by `Repositories.World`: a Go
`map[string]pkg.Package`, modelled as an association list whose insert
replaces the entry of an existing key. -/
def cacheInsert (p : Pack) : List (String × Pack) → List (String × Pack)
  | [] => [(p.fingerprint, p)]
  | e :: rest =>
    if e.1 = p.fingerprint then (p.fingerprint, p) :: rest else e :: cacheInsert p rest

/-- Lookup in the fingerprint cache. -/
def cacheFind (fp : String) : List (String × Pack) → Option Pack
  | [] => none
  | e :: rest => if e.1 = fp then some e.2 else cacheFind fp rest

/-- Inner loop of `Repositories.World`/`SyncDatabase`: fold one
repository's package world into the cache, later packages overwriting
earlier ones of the same fingerprint. -/
def dbFold (c : List (String × Pack)) (l : List Pack) : List (String × Pack) :=
  l.foldl (fun acc p => cacheInsert p acc) c

/-- Cache built by `Repositories.World`: the repositories are walked in
reverse index order (`for i := len(r) - 1; i >= 0; i--`), so definitions
of earlier repositories overwrite later ones. -/
def worldCache (re : List Repo) : List (String × Pack) :=
  re.reverse.foldl (fun c r => dbFold c r.db.world) []

/-- Model of `Repositories.World`: the values of the fingerprint cache.
(Go map iteration order is unspecified; the model fixes one order, and no
theorem below depends on it.) -/
def World (re : List Repo) : List Pack := (worldCache re).map Prod.snd

/-- Whether a repository's tree database defines a fingerprint. -/
def repoDefines (fp : String) (r : Repo) : Bool :=
  r.db.world.any fun p => p.fingerprint == fp


/-- Manifest entry (`LuetRepositoryFile`): filename, compression
algorithm and checksum set.  Checksums (`compiler.Checksums`) are a map
from hash name to value, modelled as an association list. -/
structure LuetRepositoryFile where
  fileName : String
  compressionType : String
  checksums : List (String × String)
  deriving DecidableEq, Repr, Inhabited

/-- Wire form of the spec document
(`LuetSystemRepositorySerialized`). -/
structure SerializedRepo where
  name : String
  description : String
  urls : List String
  priority : Int
  type : String
  revision : Int
  lastUpdate : String
  treePath : String
  metaPath : String
  repositoryFiles : List (String × LuetRepositoryFile)
  verify : Bool
  deriving DecidableEq, Repr

/-- Descriptor fields of `LuetSystemRepository` together with the
embedded `config.LuetRepository` (name, urls, priority, type, revision,
timestamp, cache paths, authentication, flags) and the repository-file
manifest. -/
structure LocalRepo where
  name : String
  description : String
  urls : List String
  priority : Int
  type : String
  revision : Int
  lastUpdate : String
  treePath : String
  metaPath : String
  enable : Bool
  cached : Bool
  verify : Bool
  authentication : List (String × String)
  repositoryFiles : List (String × LuetRepositoryFile)
  deriving DecidableEq, Repr

/-- Lookup of `RepositoryFiles[name]` (`GetRepositoryFile`, with `none`
for the not-found error). -/
def lookupRF (fs : List (String × LuetRepositoryFile)) (k : String) :
    Option LuetRepositoryFile :=
  (fs.find? fun e => e.1 == k).map Prod.snd

/-- Mandatory manifest keys (`REPOFILE_TREE_KEY`, `REPOFILE_META_KEY`)
and the spec document name (`REPOSITORY_SPECFILE`). -/
def REPOFILE_TREE_KEY : String := "tree"

def REPOFILE_META_KEY : String := "meta"

def REPOSITORY_SPECFILE : String := "repository.yaml"

/-- Spec-document side of `LuetSystemRepository.Serialize`: the struct
literal copies name, description, urls, priority, type, revision,
last_update, repo_files and verify, and leaves the path fields at their
zero value. -/
def serialize (r : LocalRepo) : SerializedRepo :=
  { name := r.name
    description := r.description
    urls := r.urls
    priority := r.priority
    type := r.type
    revision := r.revision
    lastUpdate := r.lastUpdate
    treePath := ""
    metaPath := ""
    repositoryFiles := r.repositoryFiles
    verify := r.verify }

/-- Model of `NewLuetSystemRepositoryFromYaml` applied to an already
decoded document (the YAML codec is external; en/decoding a
`SerializedRepo` is value-preserving, so the codec round trip is the
identity on the decoded struct).  `config.NewLuetRepository` is not under
`src/`; its construction is modelled from the spec: a freshly authored
descriptor carries the given identity fields, `enable` true, `cached`
false, and zero revision, timestamp, paths and credentials.  The source
then copies `verify` and the manifest, and takes over revision and
last_update only when they are positive resp. non-empty. -/
def fromSerialized (p : SerializedRepo) : LocalRepo :=
  { name := p.name
    description := p.description
    urls := p.urls
    priority := p.priority
    type := p.type
    enable := true
    cached := false
    verify := p.verify
    repositoryFiles := p.repositoryFiles
    revision := if p.revision > 0 then p.revision else 0
    lastUpdate := if p.lastUpdate ≠ "" then p.lastUpdate else ""
    treePath := ""
    metaPath := ""
    authentication := [] }

/-- Record of the spec-document fields named by the round-trip property:
name, urls, priority, type, revision, last_update, repo_files, verify. -/
structure SpecFields where
  name : String
  urls : List String
  priority : Int
  type : String
  revision : Int
  lastUpdate : String
  repositoryFiles : List (String × LuetRepositoryFile)
  verify : Bool
  deriving DecidableEq, Repr

/-- Projection of a descriptor onto the round-trip fields. -/
def specFields (r : LocalRepo) : SpecFields :=
  { name := r.name, urls := r.urls, priority := r.priority, type := r.type
    revision := r.revision, lastUpdate := r.lastUpdate
    repositoryFiles := r.repositoryFiles, verify := r.verify }

/-- Model of `LuetSystemRepository.ReadSpecFile` applied to the contents
of an already read file: decode the document (`parse`, the external YAML
codec, `none` = unmarshal error), then reject it unless both the tree
and the meta manifest keys are present. -/
def readSpecFromContent (parse : String → Option SerializedRepo) (content : String) :
    Except String LocalRepo :=
  match parse content with
  | none => .error "Error reading repository from file"
  | some p =>
    let repo := fromSerialized p
    if (lookupRF repo.repositoryFiles REPOFILE_TREE_KEY).isNone then
      .error "Invalid repository without the tree key file."
    else if (lookupRF repo.repositoryFiles REPOFILE_META_KEY).isNone then
      .error "Invalid repository without the meta key file."
    else .ok repo

/-- External capabilities consumed by `Sync`: the transport client's
`DownloadFile` (returning the fetched content, `error` wrapped), the YAML
codec, the artifact `Verify` capability (checksum comparison of a fetched
content against the manifest-declared checksum set), the metadata loader
(`NewLuetSystemRepositoryMetadata` on the metadata directory contents)
and the tree loader (`tree.NewInstallerRecipe(...).Load` on the tree
directory contents). -/
structure SyncWorld where
  download : String → Except String String
  parse : String → Option SerializedRepo
  verifyArtifact : String → List (String × String) → Bool
  readMetaDir : String → Option (List Artifact)
  loadTree : String → Option PackageDatabase

/-- Pre-existing on-disk cache of one repository
(`<cache-root>/<repo-name>`): the cached spec document and the contents
of the `treefs` and `metafs` directories (`none` = absent). -/
structure Cache where
  specFile : Option String
  treefs : Option String
  metafs : Option String
  deriving DecidableEq, Repr

/-- Rehydrated repository returned by a successful `Sync`: the descriptor
fields, the attached artifact index and the freshly loaded tree
database. -/
structure SyncedRepo where
  repo : LocalRepo
  index : List Artifact
  tree : PackageDatabase

/-- Observable result of one `Sync` call: the outcome, the on-disk cache
after the call, the file names passed to `DownloadFile` in order, and
whether the repository was reported as already up to date. -/
structure SyncOutput where
  outcome : Except String SyncedRepo
  cache : Cache
  downloads : List String
  upToDate : Bool

/-- Staleness comparison of `Sync` (step inside `if r.Cached` /
`if !force`): read the locally cached spec (errors ignored, a missing or
unreadable local spec counts as not up to date) and compare revision and
last_update with the candidate's. -/
def syncRepoUpdated (w : SyncWorld) (r : LocalRepo) (cache : Cache) (force : Bool)
    (repo : LocalRepo) : Bool :=
  if r.cached && !force then
    match cache.specFile with
    | none => false
    | some content =>
      match readSpecFromContent w.parse content with
      | .error _ => false
      | .ok localRepo =>
        localRepo.revision == repo.revision && localRepo.lastUpdate == repo.lastUpdate
  else false

/-- Tail of `Sync` shared by the fresh-download and the up-to-date paths:
load the metadata document from the metadata directory, load the tree
database from the tree directory, attach both to the candidate, and
re-apply the caller's locally configured urls, authentication, type,
priority, name and verify. -/
def finishSync (w : SyncWorld) (r : LocalRepo) (repo : LocalRepo) (cache : Cache)
    (treeTok metaTok : Option String) (dls : List String) (upd : Bool) : SyncOutput :=
  match metaTok with
  | none => ⟨.error "While processing repository.meta.yaml", cache, dls, upd⟩
  | some mTok =>
    match w.readMetaDir mTok with
    | none => ⟨.error "While processing repository.meta.yaml", cache, dls, upd⟩
    | some index =>
      match treeTok with
      | none => ⟨.error "Error met while unpacking rootfs", cache, dls, upd⟩
      | some tTok =>
        match w.loadTree tTok with
        | none => ⟨.error "Error met while unpacking rootfs", cache, dls, upd⟩
        | some db =>
          ⟨.ok { repo :=
                  { repo with
                    treePath := tTok
                    urls := r.urls
                    authentication := r.authentication
                    type := r.type
                    priority := r.priority
                    name := r.name
                    verify := r.verify }
                 index := index
                 tree := db },
            cache, dls, upd⟩

/-- Whether `Client()` yields a client for the repository type (`nil` for
an unknown type). -/
def clientFor (t : String) : Bool := t == "disk" || t == "http" || t == "docker"

/-- Tree manifest entry of a validated candidate (present after
`ReadSpecFile`; the fallback default is never reached). -/
def treeFileOf (repo : LocalRepo) : LuetRepositoryFile :=
  (lookupRF repo.repositoryFiles REPOFILE_TREE_KEY).getD default

/-- Metadata manifest entry of a validated candidate. -/
def metaFileOf (repo : LocalRepo) : LuetRepositoryFile :=
  (lookupRF repo.repositoryFiles REPOFILE_META_KEY).getD default

/-- Model of `LuetSystemRepository.Sync` over the external capabilities
`w`, the caller's descriptor `r`, the pre-existing on-disk cache and the
`force` flag.  Follows the source step by step: obtain a client; download
and validate the spec document; decide staleness; unless up to date,
download the tree bundle and verify it, download the metadata bundle and
verify it, and only after both verifications replace the cached spec and
the `treefs`/`metafs` directories (for a cached repository); finally load
metadata and tree and re-apply the local configuration.  Directory
removal plus unpack is modelled as replacing the directory contents with
the fetched bundle's contents; temporary files and directories of the
non-cached path are not part of the observable cache. -/
def Sync (w : SyncWorld) (r : LocalRepo) (cache : Cache) (force : Bool) : SyncOutput :=
  if !clientFor r.type then
    ⟨.error "no client could be generated from repository", cache, [], false⟩
  else
    match w.download REPOSITORY_SPECFILE with
    | .error e => ⟨.error ("While downloading repository.yaml: " ++ e), cache,
        [REPOSITORY_SPECFILE], false⟩
    | .ok file =>
      match readSpecFromContent w.parse file with
      | .error e => ⟨.error e, cache, [REPOSITORY_SPECFILE], false⟩
      | .ok repo =>
        if !syncRepoUpdated w r cache force repo then
          match w.download (treeFileOf repo).fileName with
          | .error e =>
              ⟨.error ("While downloading " ++ (treeFileOf repo).fileName ++ ": " ++ e),
                cache, [REPOSITORY_SPECFILE, (treeFileOf repo).fileName], false⟩
          | .ok dT =>
            if !w.verifyArtifact dT (treeFileOf repo).checksums then
              ⟨.error "Tree integrity check failure", cache,
                [REPOSITORY_SPECFILE, (treeFileOf repo).fileName], false⟩
            else
              match w.download (metaFileOf repo).fileName with
              | .error e =>
                  ⟨.error ("While downloading " ++ (metaFileOf repo).fileName ++ ": " ++ e),
                    cache,
                    [REPOSITORY_SPECFILE, (treeFileOf repo).fileName,
                      (metaFileOf repo).fileName], false⟩
              | .ok dM =>
                if !w.verifyArtifact dM (metaFileOf repo).checksums then
                  ⟨.error "Metadata integrity check failure", cache,
                    [REPOSITORY_SPECFILE, (treeFileOf repo).fileName,
                      (metaFileOf repo).fileName], false⟩
                else
                  finishSync w r repo
                    (if r.cached then
                      { specFile := some file, treefs := some dT, metafs := some dM }
                    else cache)
                    (some dT) (some dM)
                    [REPOSITORY_SPECFILE, (treeFileOf repo).fileName,
                      (metaFileOf repo).fileName] false
        else
          finishSync w r repo cache cache.treefs cache.metafs [REPOSITORY_SPECFILE] true

/-- Success test on an `Except` value. -/
def exceptIsOk : Except String SyncedRepo → Bool
  | .ok _ => true
  | .error _ => false

/-- Failure test on an `Except` value. -/
def exceptIsError {α : Type} : Except String α → Bool
  | .ok _ => false
  | .error _ => true

/-- Record of the locally authored descriptor fields that `Sync`
re-applies: urls, authentication, type, priority, name, verify. -/
structure LocalFields where
  urls : List String
  authentication : List (String × String)
  type : String
  priority : Int
  name : String
  verify : Bool
  deriving DecidableEq, Repr

/-- Projection of a rehydrated repository onto the locally authored
fields. -/
def localFieldsOf (sr : SyncedRepo) : LocalFields :=
  { urls := sr.repo.urls, authentication := sr.repo.authentication
    type := sr.repo.type, priority := sr.repo.priority
    name := sr.repo.name, verify := sr.repo.verify }

/-- Projection of a caller descriptor onto the locally authored
fields. -/
def localFieldsOfRepo (r : LocalRepo) : LocalFields :=
  { urls := r.urls, authentication := r.authentication
    type := r.type, priority := r.priority
    name := r.name, verify := r.verify }


/-- Build/push trace events of the docker repository generator. -/
inductive Ev where
  | build (tag : String)
  | push (tag : String)
  deriving DecidableEq, Repr

/-- Model of `LuetSystemRepository.BumpRevision`: on a reset the revision
restarts from zero before the increment; otherwise the last published
revision is read back from the spec file when one exists (`none` = the
file does not exist, an inner `error` = the existing file could not be
parsed) and incremented, and a missing file leaves the in-memory revision
to be incremented. -/
def bumpRevision (resetRevision : Bool) (rev : Int)
    (spec : Option (Except String Int)) : Except String Int :=
  if resetRevision then .ok (0 + 1)
  else
    match spec with
    | none => .ok (rev + 1)
    | some (.error e) => .error e
    | some (.ok specRev) => .ok (specRev + 1)

/-- Model of `pushImage`: skip the push when the backend already has the
tag and no force was requested. -/
def pushImageEvents (avail : String → Bool) (image : String) (force : Bool) : List Ev :=
  if avail image && !force then [] else [Ev.push image]

/-- Model of `dockerRepositoryGenerator.pushFileFromArtifact` (also the
tail of `pushImageFromArtifact` and `pushRepoMetadata`): the final image
is always generated, and when image pushing is enabled it is pushed
through `pushImage` with `force` hardcoded to `true`. -/
def pushFileTag (avail : String → Bool) (pushImages : Bool) (tag : String) : List Ev :=
  Ev.build tag :: (if pushImages then pushImageEvents avail tag true else [])

/-- Per-package body of `generatePackageImages` (the walk of
`Initialize`): a package absent from the current tree database is pruned
silently; otherwise the final image `<pfx>:<imageID>` is built unless
pushing is enabled, the tag is already available and no force was
requested, and then pushed through `pushImage` when pushing is
enabled. -/
def packageImageEvents (avail : String → Bool) (pfx : String) (imagePush force : Bool)
    (db : PackageDatabase) (p : Pack) : List Ev :=
  match db.findPackage p with
  | none => []
  | some _ =>
    let tag := pfx ++ ":" ++ p.imageId
    (if imagePush && avail tag && !force then [] else [Ev.build tag]) ++
    (if imagePush then pushImageEvents avail tag force else [])

/-- Model of `generatePackageImages` = the docker generator's
`Initialize`: one metadata sidecar entry per package, walked in order. -/
def generatePackageImages (avail : String → Bool) (pfx : String) (db : PackageDatabase)
    (imagePush force : Bool) (entries : List Pack) : List Ev :=
  entries.flatMap (packageImageEvents avail pfx imagePush force db)

/-- Result of one `dockerRepositoryGenerator.Generate` publish: the
published revision and the build/push trace. -/
structure GenResult where
  revision : Int
  events : List Ev
  deriving DecidableEq, Repr

/-- Model of `dockerRepositoryGenerator.Generate`: recover the previously
published spec when the spec image `<pfx>:repository.yaml` is available
(`priorSpec` is what reading that recovered file yields), bump the
revision through `BumpRevision`, then archive and push the runtime tree,
the compiler tree, the metadata bundle and the spec document as tagged
images, each through `pushFileFromArtifact`.  `rev0` is the descriptor's
in-memory revision before the call, the `*Name` arguments are the
compressed bundle file names the manifest records, and `force` is the
generator's force flag (which `Generate` itself never consults). -/
def dockerGenerate (avail : String → Bool) (pfx : String) (pushImages force : Bool)
    (priorSpec : Except String Int) (rev0 : Int) (resetRevision : Bool)
    (treeName ctreeName metaName : String) : Except String GenResult :=
  let specTag := pfx ++ ":" ++ REPOSITORY_SPECFILE
  let specOnDisk := if avail specTag then some priorSpec else none
  match bumpRevision resetRevision rev0 specOnDisk with
  | .error e => .error e
  | .ok rev =>
    .ok { revision := rev
          events :=
            pushFileTag avail pushImages (pfx ++ ":" ++ treeName) ++
            pushFileTag avail pushImages (pfx ++ ":" ++ ctreeName) ++
            pushFileTag avail pushImages (pfx ++ ":" ++ metaName) ++
            pushFileTag avail pushImages specTag }

/-- Events of a `Generate` outcome (`[]` when the publish failed before
building anything). -/
def genEvents : Except String GenResult → List Ev
  | .ok g => g.events
  | .error _ => []


/-! Concrete fixtures used by counterexamples and witnesses. -/

/-- Package database with no packages and failing queries. -/
def emptyDb : PackageDatabase :=
  { world := []
    findPackage := fun _ => none
    findPackageCandidate := fun _ => none
    findPackageMatch := fun _ => none
    findPackageLabel := fun _ => none
    findPackageLabelMatch := fun _ => none }

/-- Concrete non-selector package `bar-2.0`. -/
def barPack : Pack :=
  { name := "bar", category := "test", version := "2.0", selector := false
    fingerprint := "test/bar-2.0", imageId := "test-bar-2.0", labels := [] }

/-- Repository of priority 1 with an empty database. -/
def repoPrio1 : Repo := { priority := 1, db := emptyDb, index := [] }

/-- Repository of priority 10 with an empty database. -/
def repoPrio10 : Repo := { priority := 10, db := emptyDb, index := [] }

/-- C1. The pass-through branch of `ResolveSelectors` runs once per
scanned repository: over two repositories, the non-selector `bar-2.0` is
appended twice, not once as the specification intends (the inner
`REPOSITORY` loop lacks a `continue PACKAGE` in the non-selector
branch). -/
theorem resolveSelectors_duplicates_nonselector :
    (ResolveSelectors [repoPrio1, repoPrio10] [barPack]).2 = [barPack, barPack] := by
  decide

/-- C10. `PackageMatches`, `ResolveSelectors` and `SearchPackages` all
begin by sorting the receiver collection in place: afterwards the
collection the caller observes (the first component of each model) is one
and the same priority-sorted permutation of its previous contents. -/
theorem aggregator_sorts_in_place (re : List Repo) (p : List Pack)
    (rex : String → Option (String → Bool)) (pat : String) (t : SearchMode) :
    List.Perm (sortRepos re) re ∧
    List.Sorted repoLe (sortRepos re) ∧
    (PackageMatches re p).1 = sortRepos re ∧
    (ResolveSelectors re p).1 = sortRepos re ∧
    (SearchPackages rex re pat t).1 = sortRepos re :=
  ⟨List.perm_insertionSort repoLe re, List.sorted_insertionSort repoLe re, rfl, rfl, rfl⟩

/-- Concrete manifest entry for the tree bundle. -/
def rfTreeC : LuetRepositoryFile :=
  { fileName := "tree.tar.gz", compressionType := "gzip", checksums := [("sha256", "aaa")] }

/-- Concrete manifest entry for the metadata bundle. -/
def rfMetaC : LuetRepositoryFile :=
  { fileName := "repository.meta.yaml.tar", compressionType := "none"
    checksums := [("sha256", "bbb")] }

/-- Descriptor with a negative revision. -/
def descNegC : LocalRepo :=
  { name := "neg", description := "", urls := ["http://a"], priority := 3
    type := "http", revision := -1, lastUpdate := "42", treePath := "", metaPath := ""
    enable := true, cached := false, verify := true, authentication := []
    repositoryFiles := [("tree", rfTreeC), ("meta", rfMetaC)] }

/-- Descriptor with a positive revision. -/
def descPosC : LocalRepo :=
  { descNegC with name := "pos", revision := 7 }

/-- C4, counterexample. A Descriptor whose revision is `-1` does not
survive the spec-document round trip: `NewLuetSystemRepositoryFromYaml`
adopts the parsed revision only when it is positive, so the reparsed
revision is `0`. -/
theorem spec_roundtrip_negative_revision :
    specFields (fromSerialized (serialize descNegC)) ≠ specFields descNegC := by
  decide

/-- C4, amended. For every Descriptor whose revision is nonnegative,
serializing to the spec document and re-parsing yields identical name,
urls, priority, type, revision, last_update, repo_files and verify
fields (a negative revision is the one exception: it re-parses as 0). -/
theorem spec_roundtrip_fields (r : LocalRepo) (h : 0 ≤ r.revision) :
    specFields (fromSerialized (serialize r)) = specFields r := by
  have hrev : (if r.revision > 0 then r.revision else 0) = r.revision := by
    by_cases hr : r.revision > 0
    · simp [hr]
    · simp only [if_neg hr]
      omega
  have hlu : (if r.lastUpdate ≠ "" then r.lastUpdate else "") = r.lastUpdate := by
    by_cases hl : r.lastUpdate = "" <;> simp [hl]
  simp [specFields, fromSerialized, serialize, hrev, hlu]

/-- Witness for the amended round trip at a concrete descriptor. -/
theorem spec_roundtrip_fields_witness :
    (0 : Int) ≤ descPosC.revision ∧
    specFields (fromSerialized (serialize descPosC)) = specFields descPosC :=
  ⟨by decide, spec_roundtrip_fields descPosC (by decide)⟩

/-- C3. `BumpRevision` with a requested reset publishes revision 1
whatever the in-memory revision or the previously published spec said,
and so does a `Generate` call with `resetRevision = true`. -/
theorem generate_reset_yields_revision_one (avail : String → Bool) (pfx : String)
    (pushImages force : Bool) (priorSpec : Except String Int) (rev0 : Int)
    (spec : Option (Except String Int)) (treeName ctreeName metaName : String) :
    bumpRevision true rev0 spec = Except.ok 1 ∧
    Except.map GenResult.revision
      (dockerGenerate avail pfx pushImages force priorSpec rev0 true
        treeName ctreeName metaName) = Except.ok 1 := by
  constructor
  · simp [bumpRevision]
  · simp [dockerGenerate, bumpRevision, Except.map]

/-- C7, counterexample. With every tag already available in the backend
and no force requested, `Generate` still rebuilds and re-pushes the tree
bundle image: `pushFileFromArtifact` always generates the final image and
calls `pushImage` with `force` hardcoded to `true`. -/
theorem generate_repushes_available_tag :
    Ev.build "repo:tree.tar.gz" ∈ genEvents
      (dockerGenerate (fun _ => true) "repo" true false (Except.ok 3) 0 false
        "tree.tar.gz" "compilertree.tar.gz" "repository.meta.yaml.tar") ∧
    Ev.push "repo:tree.tar.gz" ∈ genEvents
      (dockerGenerate (fun _ => true) "repo" true false (Except.ok 3) 0 false
        "tree.tar.gz" "compilertree.tar.gz" "repository.meta.yaml.tar") := by
  decide

-- Per-package helper: with pushing enabled and no force, a package walk
-- step emits no build and no push event for a tag the backend reports
-- available.
theorem packageImageEvents_skips_available (avail : String → Bool) (pfx : String)
    (db : PackageDatabase) (q : Pack) (tag : String) (h : avail tag = true) :
    Ev.build tag ∉ packageImageEvents avail pfx true false db q ∧
    Ev.push tag ∉ packageImageEvents avail pfx true false db q := by
  unfold packageImageEvents
  cases hf : db.findPackage q with
  | none => simp
  | some _ =>
    by_cases hav : avail (pfx ++ ":" ++ q.imageId) = true
    · simp [hav, pushImageEvents]
    · have hne : tag ≠ pfx ++ ":" ++ q.imageId := by
        intro he
        rw [he] at h
        exact hav h
      simp [hav, pushImageEvents, hne]

/-- C7, amended. When image pushing is enabled and `force` is false, the
docker generator's `Initialize` (`generatePackageImages`) neither
rebuilds nor re-pushes any tag the backend reports as already available;
`Generate`'s repository bundle images, by contrast, are rebuilt and
force-pushed unconditionally. -/
theorem docker_initialize_skips_available (avail : String → Bool) (pfx : String)
    (db : PackageDatabase) (entries : List Pack) (tag : String) (h : avail tag = true) :
    Ev.build tag ∉ generatePackageImages avail pfx db true false entries ∧
    Ev.push tag ∉ generatePackageImages avail pfx db true false entries := by
  constructor <;> intro hmem <;>
    rw [generatePackageImages, List.mem_flatMap] at hmem <;>
    obtain ⟨q, _, hin⟩ := hmem
  · exact (packageImageEvents_skips_available avail pfx db q tag h).1 hin
  · exact (packageImageEvents_skips_available avail pfx db q tag h).2 hin

/-- Witness for the amended idempotence at a concrete backend where every
tag is available. -/
theorem docker_initialize_skips_available_witness :
    (fun _ : String => true) "repo:test-bar-2.0" = true ∧
    Ev.build "repo:test-bar-2.0" ∉
      generatePackageImages (fun _ => true) "repo" emptyDb true false [barPack] ∧
    Ev.push "repo:test-bar-2.0" ∉
      generatePackageImages (fun _ => true) "repo" emptyDb true false [barPack] :=
  ⟨rfl,
    (docker_initialize_skips_available (fun _ => true) "repo" emptyDb [barPack]
      "repo:test-bar-2.0" rfl).1,
    (docker_initialize_skips_available (fun _ => true) "repo" emptyDb [barPack]
      "repo:test-bar-2.0" rfl).2⟩


-- Frame facts of the shared sync tail: whatever the metadata/tree loads
-- do, `finishSync` returns exactly the cache, download list and
-- up-to-date report it was handed.
theorem finishSync_frame (w : SyncWorld) (r repo : LocalRepo) (c : Cache)
    (tT mT : Option String) (dls : List String) (upd : Bool) :
    (finishSync w r repo c tT mT dls upd).cache = c ∧
    (finishSync w r repo c tT mT dls upd).downloads = dls ∧
    (finishSync w r repo c tT mT dls upd).upToDate = upd := by
  unfold finishSync
  repeat' split
  all_goals exact ⟨rfl, rfl, rfl⟩

-- Every successful outcome of the sync tail carries the caller's locally
-- authored fields.
theorem finishSync_ok_fields (w : SyncWorld) (r repo : LocalRepo) (c : Cache)
    (tT mT : Option String) (dls : List String) (upd : Bool) :
    exceptIsOk (finishSync w r repo c tT mT dls upd).outcome = true →
      Except.map localFieldsOf (finishSync w r repo c tT mT dls upd).outcome =
        Except.ok (localFieldsOfRepo r) := by
  unfold finishSync
  repeat' split
  all_goals intro h
  all_goals simp_all [exceptIsOk, Except.map, localFieldsOf, localFieldsOfRepo]

-- Every run of `Sync` either fails outright or ends in the shared tail.
theorem sync_outcome_cases (w : SyncWorld) (r : LocalRepo) (cache : Cache) (force : Bool) :
    (∃ e, (Sync w r cache force).outcome = Except.error e) ∨
    (∃ repo c tT mT dls upd, Sync w r cache force = finishSync w r repo c tT mT dls upd) := by
  unfold Sync
  repeat' split
  all_goals first
    | exact Or.inl ⟨_, rfl⟩
    | exact Or.inr ⟨_, _, _, _, _, _, rfl⟩

/-- C2. When the downloaded tree bundle, or the downloaded metadata
bundle, fails checksum verification against the manifest-declared
checksums, `Sync` returns an error and the pre-existing on-disk cache
(spec document, tree directory, metadata directory) is exactly what it
was before the call: the cache replacement sits after both `Verify`
calls. -/
theorem sync_integrity_preserves_cache (w : SyncWorld) (r : LocalRepo) (cache : Cache)
    (force : Bool) (file : String) (repo : LocalRepo)
    (hc : clientFor r.type = true)
    (hd : w.download REPOSITORY_SPECFILE = Except.ok file)
    (hr : readSpecFromContent w.parse file = Except.ok repo)
    (hupd : syncRepoUpdated w r cache force repo = false)
    (hfail :
      (∃ dT, w.download (treeFileOf repo).fileName = Except.ok dT ∧
        w.verifyArtifact dT (treeFileOf repo).checksums = false) ∨
      (∃ dT dM, w.download (treeFileOf repo).fileName = Except.ok dT ∧
        w.verifyArtifact dT (treeFileOf repo).checksums = true ∧
        w.download (metaFileOf repo).fileName = Except.ok dM ∧
        w.verifyArtifact dM (metaFileOf repo).checksums = false)) :
    exceptIsError (Sync w r cache force).outcome = true ∧
    (Sync w r cache force).cache = cache := by
  rcases hfail with ⟨dT, hdt, hv⟩ | ⟨dT, dM, hdt, hvt, hdm, hv⟩
  · simp [Sync, hc, hd, hr, hupd, hdt, hv, exceptIsError]
  · simp [Sync, hc, hd, hr, hupd, hdt, hvt, hdm, hv, exceptIsError]

/-- C5. For a cached repository with `force` false, when the locally
cached spec parses and agrees with the downloaded candidate on both
revision and last_update, `Sync` downloads nothing beyond the spec
document, leaves the cache untouched, and reports the repository as
already up to date. -/
theorem sync_short_circuit (w : SyncWorld) (r : LocalRepo) (cache : Cache) (force : Bool)
    (file lc : String) (repo localRepo : LocalRepo)
    (hc : clientFor r.type = true)
    (hcached : r.cached = true)
    (hforce : force = false)
    (hd : w.download REPOSITORY_SPECFILE = Except.ok file)
    (hr : readSpecFromContent w.parse file = Except.ok repo)
    (hl : cache.specFile = some lc)
    (hlr : readSpecFromContent w.parse lc = Except.ok localRepo)
    (hrev : localRepo.revision = repo.revision)
    (hlu : localRepo.lastUpdate = repo.lastUpdate) :
    (Sync w r cache force).downloads = [REPOSITORY_SPECFILE] ∧
    (Sync w r cache force).cache = cache ∧
    (Sync w r cache force).upToDate = true := by
  subst hforce
  have hupd : syncRepoUpdated w r cache false repo = true := by
    simp [syncRepoUpdated, hcached, hl, hlr, hrev, hlu]
  have hf := finishSync_frame w r repo cache cache.treefs cache.metafs [REPOSITORY_SPECFILE] true
  refine ⟨?_, ?_, ?_⟩ <;> simp [Sync, hc, hd, hr, hupd, hf.1, hf.2.1, hf.2.2]

/-- C8. Every successful `Sync` returns a rehydrated descriptor whose
urls, authentication, type, priority, name and verify fields are the
caller's locally configured values, whatever the downloaded spec
document declared for them. -/
theorem sync_applies_local_fields (w : SyncWorld) (r : LocalRepo) (cache : Cache)
    (force : Bool) (h : exceptIsOk (Sync w r cache force).outcome = true) :
    Except.map localFieldsOf (Sync w r cache force).outcome =
      Except.ok (localFieldsOfRepo r) := by
  rcases sync_outcome_cases w r cache force with ⟨e, he⟩ | ⟨repo, c, tT, mT, dls, upd, heq⟩
  · rw [he] at h
    simp [exceptIsOk] at h
  · rw [heq] at h ⊢
    exact finishSync_ok_fields w r repo c tT mT dls upd h

/-- C9. A spec document missing the tree manifest key or the metadata
manifest key is rejected by `ReadSpecFile`, and a `Sync` presented with
such a document fails without downloading any bundle: at most the spec
document itself is ever fetched. -/
theorem spec_requires_tree_and_meta (w : SyncWorld) (content : String) (p : SerializedRepo)
    (r : LocalRepo) (cache : Cache) (force : Bool)
    (hp : w.parse content = some p)
    (hmiss : lookupRF p.repositoryFiles REPOFILE_TREE_KEY = none ∨
      lookupRF p.repositoryFiles REPOFILE_META_KEY = none)
    (hd : w.download REPOSITORY_SPECFILE = Except.ok content) :
    exceptIsError (readSpecFromContent w.parse content) = true ∧
    exceptIsError (Sync w r cache force).outcome = true ∧
    ((Sync w r cache force).downloads = [REPOSITORY_SPECFILE] ∨
      (Sync w r cache force).downloads = []) := by
  have h1 : exceptIsError (readSpecFromContent w.parse content) = true := by
    rcases hmiss with hm | hm
    · simp [readSpecFromContent, hp, fromSerialized, hm, exceptIsError]
    · rcases htree : lookupRF p.repositoryFiles REPOFILE_TREE_KEY with _ | tf <;>
        simp [readSpecFromContent, hp, fromSerialized, hm, htree, exceptIsError]
  refine ⟨h1, ?_, ?_⟩ <;>
    rcases hcli : clientFor r.type with _ | _
  · simp [Sync, hcli, exceptIsError]
  · rcases herr : readSpecFromContent w.parse content with e | repo
    · simp [Sync, hcli, hd, herr, exceptIsError]
    · rw [herr] at h1
      simp [exceptIsError] at h1
  · simp [Sync, hcli]
  · rcases herr : readSpecFromContent w.parse content with e | repo
    · simp [Sync, hcli, hd, herr]
    · rw [herr] at h1
      simp [exceptIsError] at h1


-- `Except` ships without decidable equality; the witnesses below compare
-- concrete `Except` values, so provide one.
instance {ε α : Type} [DecidableEq ε] [DecidableEq α] : DecidableEq (Except ε α) := fun a b =>
  match a, b with
  | .ok x, .ok y =>
    if h : x = y then .isTrue (congrArg Except.ok h)
    else .isFalse fun he => h (Except.ok.inj he)
  | .error x, .error y =>
    if h : x = y then .isTrue (congrArg Except.error h)
    else .isFalse fun he => h (Except.error.inj he)
  | .ok _, .error _ => .isFalse fun he => Except.noConfusion he
  | .error _, .ok _ => .isFalse fun he => Except.noConfusion he

/-- Remote spec document used by the sync witnesses. -/
def remoteSpecC : SerializedRepo :=
  { name := "official", description := "", urls := ["http://remote"], priority := 99
    type := "http", revision := 5, lastUpdate := "100", treePath := "", metaPath := ""
    repositoryFiles := [("tree", rfTreeC), ("meta", rfMetaC)], verify := false }

/-- Remote spec document without the metadata manifest key. -/
def remoteNoMetaC : SerializedRepo :=
  { remoteSpecC with repositoryFiles := [("tree", rfTreeC)] }

/-- Caller-side cached repository configuration used by the sync
witnesses. -/
def localRC : LocalRepo :=
  { name := "local", description := "", urls := ["http://local"], priority := 1
    type := "http", revision := 0, lastUpdate := "", treePath := "", metaPath := ""
    enable := true, cached := true, verify := true
    authentication := [("user", "u")], repositoryFiles := [] }

/-- Healthy remote world: every download succeeds, the spec document
parses, every checksum verifies, metadata and tree load. -/
def wOkC : SyncWorld :=
  { download := fun f =>
      if f == "repository.yaml" then .ok "specdoc"
      else if f == "tree.tar.gz" then .ok "treedata"
      else if f == "repository.meta.yaml.tar" then .ok "metadata"
      else .error "not found"
    parse := fun c => if c == "specdoc" then some remoteSpecC else none
    verifyArtifact := fun _ _ => true
    readMetaDir := fun _ => some []
    loadTree := fun _ => some emptyDb }

/-- World in which the downloaded tree bundle fails verification. -/
def wBadTreeC : SyncWorld :=
  { wOkC with verifyArtifact := fun d _ => !(d == "treedata") }

/-- World whose spec document lacks the metadata manifest key. -/
def wNoMetaC : SyncWorld :=
  { wOkC with parse := fun c => if c == "specdoc" then some remoteNoMetaC else none }

/-- Empty pre-existing cache. -/
def cacheEmptyC : Cache := { specFile := none, treefs := none, metafs := none }

/-- Populated pre-existing cache from an earlier sync. -/
def cachePreC : Cache :=
  { specFile := some "oldspec", treefs := some "oldtree", metafs := some "oldmeta" }

/-- Cache whose spec document equals the remote one. -/
def cacheUpC : Cache :=
  { specFile := some "specdoc", treefs := some "oldtree", metafs := some "oldmeta" }

/-- Witness for the integrity gate: a corrupted tree bundle aborts the
sync and leaves the populated cache byte-for-byte unchanged. -/
theorem sync_integrity_preserves_cache_witness :
    wBadTreeC.verifyArtifact "treedata" (treeFileOf (fromSerialized remoteSpecC)).checksums
        = false ∧
    exceptIsError (Sync wBadTreeC localRC cachePreC false).outcome = true ∧
    (Sync wBadTreeC localRC cachePreC false).cache = cachePreC :=
  ⟨by decide,
    (sync_integrity_preserves_cache wBadTreeC localRC cachePreC false "specdoc"
      (fromSerialized remoteSpecC) (by decide) (by decide) (by decide) (by decide)
      (Or.inl ⟨"treedata", by decide, by decide⟩)).1,
    (sync_integrity_preserves_cache wBadTreeC localRC cachePreC false "specdoc"
      (fromSerialized remoteSpecC) (by decide) (by decide) (by decide) (by decide)
      (Or.inl ⟨"treedata", by decide, by decide⟩)).2⟩

/-- Witness for the short circuit: a cache matching the remote revision
and timestamp yields a spec-only download, an untouched cache and an
up-to-date report. -/
theorem sync_short_circuit_witness :
    readSpecFromContent wOkC.parse "specdoc" = Except.ok (fromSerialized remoteSpecC) ∧
    (Sync wOkC localRC cacheUpC false).downloads = [REPOSITORY_SPECFILE] ∧
    (Sync wOkC localRC cacheUpC false).cache = cacheUpC ∧
    (Sync wOkC localRC cacheUpC false).upToDate = true := by
  have h := sync_short_circuit wOkC localRC cacheUpC false "specdoc" "specdoc"
    (fromSerialized remoteSpecC) (fromSerialized remoteSpecC)
    (by decide) (by decide) rfl (by decide) (by decide) (by decide) (by decide) rfl rfl
  exact ⟨by decide, h.1, h.2.1, h.2.2⟩

/-- Witness for the local-field overwrite on a fully successful sync. -/
theorem sync_applies_local_fields_witness :
    exceptIsOk (Sync wOkC localRC cacheEmptyC false).outcome = true ∧
    Except.map localFieldsOf (Sync wOkC localRC cacheEmptyC false).outcome =
      Except.ok
        { urls := ["http://local"], authentication := [("user", "u")], type := "http"
          priority := 1, name := "local", verify := true } :=
  ⟨by decide, sync_applies_local_fields wOkC localRC cacheEmptyC false (by decide)⟩

/-- Witness for the mandatory-key validation: a spec document without the
metadata key is rejected and no bundle is ever downloaded. -/
theorem spec_requires_tree_and_meta_witness :
    lookupRF remoteNoMetaC.repositoryFiles REPOFILE_META_KEY = none ∧
    exceptIsError (readSpecFromContent wNoMetaC.parse "specdoc") = true ∧
    exceptIsError (Sync wNoMetaC localRC cacheEmptyC false).outcome = true ∧
    ((Sync wNoMetaC localRC cacheEmptyC false).downloads = [REPOSITORY_SPECFILE] ∨
      (Sync wNoMetaC localRC cacheEmptyC false).downloads = []) := by
  have h := spec_requires_tree_and_meta wNoMetaC "specdoc" remoteNoMetaC localRC
    cacheEmptyC false (by decide) (Or.inr (by decide)) (by decide)
  exact ⟨by decide, h.1, h.2.1, h.2.2⟩


/-- Last package of a list carrying a given fingerprint (the one whose
cache write survives the inner loop of `World`). -/
def lastWithFp (fp : String) (l : List Pack) : Option Pack :=
  l.reverse.find? fun p => p.fingerprint == fp

-- Looking up a fingerprint after one map write: the written package is
-- found under its fingerprint, every other key is untouched.
theorem cacheFind_cacheInsert (fp : String) (p : Pack) (c : List (String × Pack)) :
    cacheFind fp (cacheInsert p c) =
      if p.fingerprint = fp then some p else cacheFind fp c := by
  induction c with
  | nil => simp [cacheInsert, cacheFind]
  | cons e rest ih =>
    by_cases he : e.1 = p.fingerprint
    · by_cases hp : p.fingerprint = fp
      · simp [cacheInsert, cacheFind, he, hp]
      · simp [cacheInsert, cacheFind, he, hp]
    · by_cases hef : e.1 = fp
      · have hp : ¬ p.fingerprint = fp := fun h => he (hef.trans h.symm)
        simp only [cacheInsert, if_neg he, cacheFind, if_pos hef, if_neg hp]
      · simp [cacheInsert, cacheFind, he, hef, ih]

-- A fingerprint is absent from a package list exactly when the list
-- reports no package with it.
theorem lastWithFp_eq_none (fp : String) (l : List Pack) :
    lastWithFp fp l = none ↔ (l.any fun p => p.fingerprint == fp) = false := by
  simp [lastWithFp, List.find?_eq_none, List.any_eq_false, List.mem_reverse]

-- Folding one repository world into the cache: the repository's last
-- package with the fingerprint wins, otherwise the cache is consulted.
theorem cacheFind_dbFold (fp : String) (l : List Pack) (c : List (String × Pack)) :
    cacheFind fp (dbFold c l) =
      match lastWithFp fp l with
      | some q => some q
      | none => cacheFind fp c := by
  induction l generalizing c with
  | nil => simp [dbFold, lastWithFp]
  | cons p l ih =>
    show cacheFind fp (dbFold (cacheInsert p c) l) = _
    rw [ih]
    have hrev : lastWithFp fp (p :: l) =
        (lastWithFp fp l).or (if p.fingerprint = fp then some p else none) := by
      rw [lastWithFp, List.reverse_cons, List.find?_append]
      by_cases hp : p.fingerprint = fp
      · simp [lastWithFp, List.find?, hp]
      · have hb : (p.fingerprint == fp) = false := beq_eq_false_iff_ne.mpr hp
        simp [lastWithFp, List.find?, hp, hb]
    rw [hrev]
    cases hf : lastWithFp fp l with
    | some q => simp [Option.or]
    | none =>
      simp [Option.or, cacheFind_cacheInsert]
      by_cases hp : p.fingerprint = fp <;> simp [hp]

-- The full cache of `World`: the first repository in collection order
-- that defines a fingerprint supplies its definition.
theorem cacheFind_worldCache (fp : String) (re : List Repo) :
    cacheFind fp (worldCache re) =
      match re.find? (repoDefines fp) with
      | none => none
      | some r => lastWithFp fp r.db.world := by
  induction re with
  | nil => simp [worldCache, cacheFind, List.find?]
  | cons r rs ih =>
    have hw : worldCache (r :: rs) = dbFold (worldCache rs) r.db.world := by
      simp [worldCache, List.reverse_cons, List.foldl_append]
    rw [hw, cacheFind_dbFold, ih]
    by_cases hdef : repoDefines fp r = true
    · cases hlast : lastWithFp fp r.db.world with
      | none =>
        rw [lastWithFp_eq_none] at hlast
        rw [repoDefines] at hdef
        rw [hlast] at hdef
        cases hdef
      | some q => simp [hlast, List.find?_cons_of_pos _ hdef]
    · have hfalse : repoDefines fp r = false := by
        cases h : repoDefines fp r
        · rfl
        · exact absurd h hdef
      have hnone : lastWithFp fp r.db.world = none := by
        rw [lastWithFp_eq_none]
        rw [repoDefines] at hfalse
        exact hfalse
      simp [hnone, List.find?_cons_of_neg _ hdef]

-- Every cache entry's value carries the entry's key as fingerprint.
theorem cacheInsert_invariant (p : Pack) (c : List (String × Pack))
    (hc : ∀ e ∈ c, e.2.fingerprint = e.1) :
    ∀ e ∈ cacheInsert p c, e.2.fingerprint = e.1 := by
  induction c with
  | nil =>
    intro e he
    simp [cacheInsert] at he
    subst he
    rfl
  | cons f rest ih =>
    intro e he
    unfold cacheInsert at he
    by_cases hf : f.1 = p.fingerprint
    · rw [if_pos hf] at he
      rcases List.mem_cons.mp he with h | h
      · subst h; rfl
      · exact hc e (List.mem_cons_of_mem f h)
    · rw [if_neg hf] at he
      rcases List.mem_cons.mp he with h | h
      · rw [h]
        exact hc f (List.mem_cons_self f rest)
      · exact ih (fun e' he' => hc e' (List.mem_cons_of_mem f he')) e h

-- Key membership after one map write.
theorem mem_keys_cacheInsert (k : String) (p : Pack) (c : List (String × Pack)) :
    k ∈ (cacheInsert p c).map Prod.fst ↔ k = p.fingerprint ∨ k ∈ c.map Prod.fst := by
  induction c with
  | nil => simp [cacheInsert]
  | cons f rest ih =>
    by_cases hf : f.1 = p.fingerprint
    · simp [cacheInsert, hf]
    · simp [cacheInsert, hf, ih]
      tauto

-- Map writes keep the cache keys distinct.
theorem cacheInsert_keys_nodup (p : Pack) (c : List (String × Pack))
    (h : (c.map Prod.fst).Nodup) : ((cacheInsert p c).map Prod.fst).Nodup := by
  induction c with
  | nil => simp [cacheInsert]
  | cons f rest ih =>
    rcases List.nodup_cons.mp h with ⟨hfmem, hrest⟩
    by_cases hf : f.1 = p.fingerprint
    · simp only [cacheInsert, if_pos hf, List.map_cons]
      refine List.nodup_cons.mpr ⟨?_, hrest⟩
      rw [← hf]
      exact hfmem
    · simp only [cacheInsert, if_neg hf, List.map_cons]
      refine List.nodup_cons.mpr ⟨?_, ih hrest⟩
      intro hmem
      rcases (mem_keys_cacheInsert f.1 p rest).mp hmem with h1 | h1
      · exact hf h1
      · exact hfmem h1

-- Both cache invariants hold of every intermediate fold state and hence
-- of the final `World` cache.
theorem dbFold_invariants (l : List Pack) (c : List (String × Pack))
    (hc : ∀ e ∈ c, e.2.fingerprint = e.1) (hn : (c.map Prod.fst).Nodup) :
    (∀ e ∈ dbFold c l, e.2.fingerprint = e.1) ∧ ((dbFold c l).map Prod.fst).Nodup := by
  induction l generalizing c with
  | nil => exact ⟨hc, hn⟩
  | cons p l ih =>
    exact ih (cacheInsert p c) (cacheInsert_invariant p c hc) (cacheInsert_keys_nodup p c hn)

theorem foldl_dbFold_invariants (l : List Repo) (c : List (String × Pack))
    (hc : ∀ e ∈ c, e.2.fingerprint = e.1) (hn : (c.map Prod.fst).Nodup) :
    (∀ e ∈ l.foldl (fun c r => dbFold c r.db.world) c, e.2.fingerprint = e.1) ∧
    ((l.foldl (fun c r => dbFold c r.db.world) c).map Prod.fst).Nodup := by
  induction l generalizing c with
  | nil => exact ⟨hc, hn⟩
  | cons r rs ih =>
    have h := dbFold_invariants r.db.world c hc hn
    exact ih (dbFold c r.db.world) h.1 h.2

theorem worldCache_invariants (re : List Repo) :
    (∀ e ∈ worldCache re, e.2.fingerprint = e.1) ∧
    ((worldCache re).map Prod.fst).Nodup :=
  foldl_dbFold_invariants re.reverse [] (by simp) (by simp)

-- With the two cache invariants, filtering the cache values for a
-- fingerprint yields exactly the cache entry of that fingerprint.
theorem values_filter_eq (fp : String) (c : List (String × Pack))
    (hinv : ∀ e ∈ c, e.2.fingerprint = e.1) (hnd : (c.map Prod.fst).Nodup) :
    (c.map Prod.snd).filter (fun p => p.fingerprint == fp) =
      (cacheFind fp c).toList := by
  induction c with
  | nil => simp [cacheFind]
  | cons e rest ih =>
    have hef : e.2.fingerprint = e.1 := hinv e (List.mem_cons_self e rest)
    rcases List.nodup_cons.mp hnd with ⟨hemem, hrest⟩
    have hinvrest : ∀ e' ∈ rest, e'.2.fingerprint = e'.1 :=
      fun e' he' => hinv e' (List.mem_cons_of_mem e he')
    by_cases hk : e.1 = fp
    · have hrfil : (rest.map Prod.snd).filter (fun p => p.fingerprint == fp) = [] := by
        rw [List.filter_eq_nil_iff]
        intro p hp
        obtain ⟨e', he', rfl⟩ := List.mem_map.mp hp
        have h1 : e'.2.fingerprint = e'.1 := hinvrest e' he'
        have h2 : e'.1 ≠ fp := by
          intro hh
          have hm : e'.1 ∈ rest.map Prod.fst := List.mem_map_of_mem Prod.fst he'
          rw [hh, ← hk] at hm
          exact hemem hm
        simp [h1, h2]
      have hpe : (e.2.fingerprint == fp) = true := by simp [hef, hk]
      simp [List.filter_cons, hpe, hrfil, cacheFind, hk]
    · have hpe : (e.2.fingerprint == fp) = false := by
        rw [beq_eq_false_iff_ne, hef]
        exact hk
      simp [List.filter_cons, hpe, cacheFind, hk, ih hinvrest hrest]

-- In a priority-sorted collection, the first repository that defines a
-- fingerprint has minimal priority among all repositories defining it.
theorem find?_first_min (re : List Repo) (fp : String) (r₀ : Repo)
    (hs : re.Pairwise repoLe) (hfind : re.find? (repoDefines fp) = some r₀) :
    ∀ r' ∈ re, repoDefines fp r' = true → r₀.priority ≤ r'.priority := by
  induction re with
  | nil => cases hfind
  | cons r rs ih =>
    rcases List.pairwise_cons.mp hs with ⟨hr, hrs⟩
    by_cases hd : repoDefines fp r = true
    · rw [List.find?_cons_of_pos rs hd] at hfind
      injection hfind with h
      subst h
      intro r' hr' hd'
      rcases List.mem_cons.mp hr' with h | h
      · rw [h]
      · exact hr r' h
    · rw [List.find?_cons_of_neg rs hd] at hfind
      intro r' hr' hd'
      rcases List.mem_cons.mp hr' with h | h
      · rw [h] at hd'
        exact absurd hd' hd
      · exact ih hrs hfind r' h hd'

/-- C6, amended. Over a collection sorted in ascending priority order,
`World()` returns exactly one package per fingerprint, and for every
shared fingerprint the returned definition comes from the first
repository in the sorted order that defines it — a repository of minimal
priority among all definers.  (Over an unsorted collection the winner is
the first repository in collection order, not the lowest-priority one.) -/
theorem world_precedence_sorted (re : List Repo) (fp : String) (r₀ : Repo)
    (hs : re.Pairwise repoLe)
    (hfind : re.find? (repoDefines fp) = some r₀) :
    ((World re).filter (fun p => p.fingerprint == fp)).length = 1 ∧
    (∀ p ∈ World re, p.fingerprint = fp → p ∈ r₀.db.world) ∧
    (∀ r' ∈ re, repoDefines fp r' = true → r₀.priority ≤ r'.priority) := by
  obtain ⟨hinv, hnd⟩ := worldCache_invariants re
  have hfilter := values_filter_eq fp (worldCache re) hinv hnd
  have hcf : cacheFind fp (worldCache re) = lastWithFp fp r₀.db.world := by
    rw [cacheFind_worldCache, hfind]
  have hdef : repoDefines fp r₀ = true := List.find?_some hfind
  obtain ⟨q, hq⟩ : ∃ q, lastWithFp fp r₀.db.world = some q := by
    cases hl : lastWithFp fp r₀.db.world with
    | some q => exact ⟨q, rfl⟩
    | none =>
      rw [lastWithFp_eq_none] at hl
      rw [repoDefines] at hdef
      rw [hl] at hdef
      cases hdef
  have hqmem : q ∈ r₀.db.world := by
    have h1 := List.mem_of_find?_eq_some hq
    exact List.mem_reverse.mp h1
  have hWfilter : (World re).filter (fun p => p.fingerprint == fp) = [q] := by
    show ((worldCache re).map Prod.snd).filter (fun p => p.fingerprint == fp) = [q]
    rw [hfilter, hcf, hq]
    rfl
  refine ⟨by rw [hWfilter]; rfl, ?_, find?_first_min re fp r₀ hs hfind⟩
  intro p hp hpfp
  have hmem : p ∈ (World re).filter (fun p => p.fingerprint == fp) :=
    List.mem_filter.mpr ⟨hp, by simp [hpfp]⟩
  rw [hWfilter] at hmem
  simp at hmem
  rw [hmem]
  exact hqmem

/-- Definition of `foo-1.0` as repository A ships it. -/
def pA : Pack :=
  { name := "foo", category := "test", version := "1.0", selector := false
    fingerprint := "test/foo-1.0", imageId := "test-foo-1.0", labels := ["from-A"] }

/-- Definition of `foo-1.0` as repository B ships it (same fingerprint,
different content). -/
def pB : Pack := { pA with labels := ["from-B"] }

/-- Repository A: priority 1, ships `pA`. -/
def repoA : Repo := { priority := 1, db := { emptyDb with world := [pA] }, index := [] }

/-- Repository B: priority 10, ships `pB`. -/
def repoB : Repo := { priority := 10, db := { emptyDb with world := [pB] }, index := [] }

/-- C6, counterexample. `World()` never sorts its receiver: over the
collection `[B, A]` in which the lower-priority-number repository A comes
second, the shared fingerprint resolves to B's definition, not to the
definition of the repository with the lowest priority number. -/
theorem world_unsorted_ignores_priority :
    repoA.priority < repoB.priority ∧
    repoDefines "test/foo-1.0" repoA = true ∧
    repoDefines "test/foo-1.0" repoB = true ∧
    World [repoB, repoA] = [pB] ∧
    pB ≠ pA := by
  decide

/-- Witness for the amended precedence over the sorted collection
`[A, B]`. -/
theorem world_precedence_sorted_witness :
    [repoA, repoB].Pairwise repoLe ∧
    [repoA, repoB].find? (repoDefines "test/foo-1.0") = some repoA ∧
    (((World [repoA, repoB]).filter fun p => p.fingerprint == "test/foo-1.0").length = 1 ∧
      (∀ p ∈ World [repoA, repoB], p.fingerprint = "test/foo-1.0" → p ∈ repoA.db.world) ∧
      (∀ r' ∈ [repoA, repoB], repoDefines "test/foo-1.0" r' = true →
        repoA.priority ≤ r'.priority)) :=
  ⟨by simp [repoLe, repoA, repoB], rfl,
    world_precedence_sorted [repoA, repoB] "test/foo-1.0" repoA
      (by simp [repoLe, repoA, repoB]) rfl⟩

end Luet
